import Mathlib

/-! Numeric casts of the DDL runtime (`rts-c/ddl/cast.h`)

A shallow embedding of the fixed-width and arbitrary-precision integer casts of
`cast.h`, unchecked and checked (`..._maybe`), with the properties the
specification states about them.

Machine integers are mathematical integers (`Int`) with explicit reduction
modulo a power of two.  `cast.h` includes `ddl/number.h`, `ddl/integer.h` and
`ddl/maybe.h`, which are not among the sources; what the casts use of them is
modelled from the specification (sections 3, 4 and 6) and marked as such.
-/

namespace DDL

/-! ## The host: native word size and storage types -/

/-- Modelled from the spec: the parts of the C++ host the casts depend on, which
`cast.h` does not fix.  `longBits` is `8 * sizeof(long)`.  `repBits w` is the
number of bits of the storage type `Rep` of a `w`-bit integer (`UInt<w>::Rep`,
`SInt<w>::Rep`, declared in `number.h`); section 3 of the specification
distinguishes the `N`-bit field from "the underlying storage type", which is at
least as wide as the field. -/
structure Host where
  longBits : Nat
  repBits : Nat → Nat
  repBits_ge : ∀ w, w ≤ repBits w

/-- Storage width of the usual machine integers: the smallest of 8, 16, 32 and
64 bits that holds the field; wider fields get whole 64-bit words. -/
def stdRepBits (w : Nat) : Nat :=
  if w ≤ 8 then 8 else if w ≤ 16 then 16 else if w ≤ 32 then 32 else 64 * ((w + 63) / 64)

/-- A host with a 64-bit `long` (LP64). -/
def lp64 : Host :=
  ⟨64, stdRepBits, fun w => by unfold stdRepBits; split_ifs <;> omega⟩

/-- A host with a 32-bit `long` (ILP32, LLP64). -/
def ilp32 : Host :=
  ⟨32, stdRepBits, fun w => by unfold stdRepBits; split_ifs <;> omega⟩

/-! ## Machine integer conversions -/

/-- C++ integral conversion to an unsigned type of `k` bits: the value modulo
`2^k`. -/
def toUnsigned (k : Nat) (i : Int) : Int := i % 2 ^ k

/-- C++ integral conversion to a signed two's-complement type of `k` bits: the
low `k` bits, the top one of them being the sign. -/
def toSigned (k : Nat) (i : Int) : Int :=
  if 2 * (i % 2 ^ k) < 2 ^ k then i % 2 ^ k else i % 2 ^ k - 2 ^ k

/-! ## Numeric value types (`number.h`) -/

/-- Modelled from the spec: `UInt<w>` of `number.h`, "unsigned integer value,
exactly N bits wide", whose "stored representation never has bits set above
position N-1"; range `[0, 2^N - 1]`. -/
@[ext]
structure UInt (w : Nat) where
  val : Int
  nonneg : 0 ≤ val
  lt : val < 2 ^ w
deriving DecidableEq

/-- Modelled from the spec: `SInt<w>` of `number.h`, "signed integer value, N
bits wide, two's-complement", with values `-2^(N-1) .. 2^(N-1)-1`; the bounds
are stated doubled, `-2^N ≤ 2 * val < 2^N`, which is the same range. -/
@[ext]
structure SInt (w : Nat) where
  val : Int
  ge : -(2 ^ w) ≤ 2 * val
  lt : 2 * val < 2 ^ w
deriving DecidableEq

/-- Modelled from the spec: the constructor `UInt<w>(Rep d)`, which keeps the low
`w` bits of the storage value ("mask ... to exactly `out_width` bits"). -/
def UInt.ofRep (w : Nat) (d : Int) : UInt w :=
  ⟨toUnsigned w d, Int.emod_nonneg _ (by positivity), Int.emod_lt_of_pos _ (by positivity)⟩

/-- Modelled from the spec: the constructor `SInt<w>(Rep d)`, which keeps the low
`w` bits of the storage value, the sign being "the top bit of the N-bit field"
("sign-extend to exactly `out_width` bits"). -/
def SInt.ofRep (w : Nat) (d : Int) : SInt w :=
  ⟨toSigned w d,
   by
    have h0 : 0 ≤ d % 2 ^ w := Int.emod_nonneg _ (by positivity)
    have h1 : d % 2 ^ w < 2 ^ w := Int.emod_lt_of_pos _ (by positivity)
    unfold toSigned
    split_ifs <;> omega,
   by
    have h0 : 0 ≤ d % 2 ^ w := Int.emod_nonneg _ (by positivity)
    have h1 : d % 2 ^ w < 2 ^ w := Int.emod_lt_of_pos _ (by positivity)
    unfold toSigned
    split_ifs <;> omega⟩

/-- Modelled from the spec: `UInt<w>::rep()`, the value as a storage integer. -/
def UInt.rep {w : Nat} (x : UInt w) : Int := x.val

/-- Modelled from the spec: `SInt<w>::rep()`, the (sign-extended) value as a
storage integer. -/
def SInt.rep {w : Nat} (x : SInt w) : Int := x.val

/-- Modelled from the spec: `UInt<w>::maxValRep()`, the upper range bound
`2^w - 1`. -/
def UInt.maxValRep (w : Nat) : Int := 2 ^ w - 1

/-- Modelled from the spec: `SInt<w>::maxValRep()`, the upper range bound
`2^(w-1) - 1`. -/
def SInt.maxValRep (w : Nat) : Int := 2 ^ (w - 1) - 1

/-- Modelled from the spec: `SInt<w>::minValRep()`, the lower range bound
`-2^(w-1)`. -/
def SInt.minValRep (w : Nat) : Int := -(2 ^ (w - 1))

/-- Modelled from the spec: `operator <=` of `UInt<w>`, comparison of values. -/
def UInt.leq {w : Nat} (x y : UInt w) : Bool := decide (x.rep ≤ y.rep)

/-- Modelled from the spec: `operator <=` of `SInt<w>`, comparison of values. -/
def SInt.leq {w : Nat} (x y : SInt w) : Bool := decide (x.rep ≤ y.rep)

/-- Modelled from the spec: `operator <` of `SInt<w>`, comparison of values. -/
def SInt.less {w : Nat} (x y : SInt w) : Bool := decide (x.rep < y.rep)

/-! ## Arbitrary-precision integers (`integer.h`, GMP) -/

/-- Modelled from the spec: `Integer` of `integer.h`, the "arbitrary-precision
signed integer"; `getValue` is the GMP number it wraps. -/
structure Integer where
  getValue : Int
deriving DecidableEq

/-- Modelled from the spec: the constructor `Integer(Rep r)`, "construct from
fixed-width representation", exact. -/
def Integer.ofRep (r : Int) : Integer := ⟨r⟩

/-- Modelled from the spec: `Integer::isNatural()`, "the BigInt is
non-negative". -/
def Integer.isNatural (x : Integer) : Bool := decide (0 ≤ x.getValue)

/-- Modelled from the spec: `Integer::exportI(r)`, "export the BigInt's value into
a fixed-width representation", a value that does not fit being truncated to the
low bits.  `sgn` tells whether the storage type `r` has is signed, `k` is its
number of bits. -/
def Integer.exportI (sgn : Bool) (k : Nat) (x : Integer) : Int :=
  if sgn then toSigned k x.getValue else toUnsigned k x.getValue

/-- Number of binary digits of `n`, by halving (`fuel` bounds the halvings). -/
def bitsAux : Nat → Nat → Nat
  | 0, _ => 0
  | fuel + 1, n => if n = 0 then 0 else bitsAux fuel (n / 2) + 1

/-- GMP `mpz_sizeinbase(op, 2)`: the number of binary digits of the absolute
value of `op`, and 1 when `op` is zero. -/
def mpz_sizeinbase2 (op : Int) : Nat :=
  if op = 0 then 1 else bitsAux op.natAbs op.natAbs

/-- GMP `mpz_fits_slong_p(op)`: whether `op` is in the range of `long`. -/
def mpz_fits_slong_p (h : Host) (op : Int) : Bool :=
  decide (-(2 ^ (h.longBits - 1)) ≤ op ∧ op ≤ 2 ^ (h.longBits - 1) - 1)

/-- GMP `mpz_get_si(op)`: the value of `op` when it fits a `long`, else the least
significant part of `op` with the sign of `op`. -/
def mpz_get_si (h : Host) (op : Int) : Int :=
  if mpz_fits_slong_p h op then op
  else Int.sign op * ((op.natAbs : Int) % 2 ^ (h.longBits - 1))

/-! ## Unchecked casts (`cast.h`, lines 14-119)

The argument `x.rep()` is converted to the storage type of the target
(`UInt<out>::Rep` unsigned, `SInt<out>::Rep` signed) before the constructor
reduces it to `out` bits. -/

/-- Source `uint_to_uint<in,out>`: `UInt<out>(x.rep())`. -/
def uint_to_uint (h : Host) (win wout : Nat) (x : UInt win) : UInt wout :=
  UInt.ofRep wout (toUnsigned (h.repBits wout) x.rep)

/-- Source `sint_to_uint<in,out>`: `UInt<out>(x.rep())`. -/
def sint_to_uint (h : Host) (win wout : Nat) (x : SInt win) : UInt wout :=
  UInt.ofRep wout (toUnsigned (h.repBits wout) x.rep)

/-- Source `uint_to_sint<in,out>`: `SInt<out>(x.rep())`. -/
def uint_to_sint (h : Host) (win wout : Nat) (x : UInt win) : SInt wout :=
  SInt.ofRep wout (toSigned (h.repBits wout) x.rep)

/-- Source `sint_to_sint<in,out>`: `SInt<out>(x.rep())`. -/
def sint_to_sint (h : Host) (win wout : Nat) (x : SInt win) : SInt wout :=
  SInt.ofRep wout (toSigned (h.repBits wout) x.rep)

/-- Source `uint_to_integer<in>`: `Integer(x.rep())`. -/
def uint_to_integer (win : Nat) (x : UInt win) : Integer := Integer.ofRep x.rep

/-- Source `sint_to_integer<in>`: `Integer(x.rep())`. -/
def sint_to_integer (win : Nat) (x : SInt win) : Integer := Integer.ofRep x.rep

/-- Source `integer_to_uint<out>`: export into a `UInt<out>::Rep`, then
`UInt<out>(r)`. -/
def integer_to_uint (h : Host) (wout : Nat) (x : Integer) : UInt wout :=
  let r := x.exportI false (h.repBits wout)
  UInt.ofRep wout r

/-- Source `integer_to_sint<out>`: export into a `SInt<out>::Rep`, then
`SInt<out>(r)`. -/
def integer_to_sint (h : Host) (wout : Nat) (x : Integer) : SInt wout :=
  let r := x.exportI true (h.repBits wout)
  SInt.ofRep wout r

/-! ## Checked casts (`cast.h`, lines 147-249)

`Maybe<T>` of `maybe.h` is `Option T`: `Maybe<T>(v)` is `some v`, `Maybe<T>()`
is `none`. -/

/-- Source `uint_to_uint_maybe<in,out>`. -/
def uint_to_uint_maybe (h : Host) (win wout : Nat) (x : UInt win) : Option (UInt wout) :=
  if wout ≥ win then some (uint_to_uint h win wout x)
  else
    let lim : UInt win := UInt.ofRep win (toUnsigned (h.repBits win) (UInt.maxValRep wout))
    if x.leq lim then some (uint_to_uint h win wout x) else none

/-- Source `sint_to_sint_maybe<in,out>`. -/
def sint_to_sint_maybe (h : Host) (win wout : Nat) (x : SInt win) : Option (SInt wout) :=
  if wout ≥ win then some (sint_to_sint h win wout x)
  else
    let lower : SInt win := SInt.ofRep win (toSigned (h.repBits win) (SInt.minValRep wout))
    let upper : SInt win := SInt.ofRep win (toSigned (h.repBits win) (SInt.maxValRep wout))
    if lower.leq x && x.leq upper then some (sint_to_sint h win wout x) else none

/-- Source `uint_to_sint_maybe<in,out>`. -/
def uint_to_sint_maybe (h : Host) (win wout : Nat) (x : UInt win) : Option (SInt wout) :=
  if wout > win then some (uint_to_sint h win wout x)
  else
    let upper : UInt win := UInt.ofRep win (toUnsigned (h.repBits win) (SInt.maxValRep wout))
    if x.leq upper then some (uint_to_sint h win wout x) else none

/-- Source `sint_to_uint_maybe<in,out>`; the literal `0` of `x < 0` becomes an
`SInt<in>` through the constructor. -/
def sint_to_uint_maybe (h : Host) (win wout : Nat) (x : SInt win) : Option (UInt wout) :=
  if x.less (SInt.ofRep win (toSigned (h.repBits win) 0)) then none
  else if wout ≥ win then some (sint_to_uint h win wout x)
  else
    let upper : SInt win := SInt.ofRep win (toSigned (h.repBits win) (UInt.maxValRep wout))
    if x.leq upper then some (sint_to_uint h win wout x) else none

/-- Source `uint_to_integer_maybe<in>`. -/
def uint_to_integer_maybe (win : Nat) (x : UInt win) : Option Integer :=
  some (uint_to_integer win x)

/-- Source `sint_to_integer_maybe<in>`. -/
def sint_to_integer_maybe (win : Nat) (x : SInt win) : Option Integer :=
  some (sint_to_integer win x)

/-- Source `integer_to_uint_maybe<out>`. -/
def integer_to_uint_maybe (h : Host) (wout : Nat) (x : Integer) : Option (UInt wout) :=
  if x.isNatural && decide (mpz_sizeinbase2 x.getValue ≤ wout) then
    let v := x.exportI false (h.repBits wout)
    some (UInt.ofRep wout v)
  else none

/-- Source `integer_to_sint_maybe<out>`: the native-word path, the refusal for
`out <= 8 * sizeof(long)`, and the export / re-import comparison. -/
def integer_to_sint_maybe (h : Host) (wout : Nat) (x : Integer) : Option (SInt wout) :=
  let c := x.getValue
  if mpz_fits_slong_p h c then
    let v := mpz_get_si h c
    if decide (SInt.minValRep wout ≤ v) && decide (v ≤ SInt.maxValRep wout) then
      some (SInt.ofRep wout (toSigned (h.repBits wout) v))
    else none
  else if wout ≤ h.longBits then none
  else
    let r := x.exportI true (h.repBits wout)
    let check := Integer.ofRep r
    let ok := decide (check = x)
    if ok then some (SInt.ofRep wout r) else none

/-! ## Floating-point casts from integers (`cast.h`, lines 50-73)

`float.h` is not among the sources.  The conversion `static_cast<float>` /
`static_cast<double>` of the storage integer is a parameter `cvt` of the casts;
`roundToPrecision` is the IEEE 754 instance of it. -/

/-- Modelled from the spec: `Float` of `float.h`, a binary32 value, here a wrapper
of the value `static_cast<float>` produced. -/
structure Float (F : Type) where
  getValue : F
deriving DecidableEq

/-- Modelled from the spec: `Double` of `float.h`, a binary64 value, here a
wrapper of the value `static_cast<double>` produced. -/
structure Double (F : Type) where
  getValue : F
deriving DecidableEq

/-- IEEE 754 conversion of an integer to a binary format with `p` significand
bits, rounding to nearest, ties to even (the exponent range does not limit
64-bit inputs); the result, always integral, is given by its value. -/
def roundToPrecision (p : Nat) (r : Int) : Int :=
  let n := r.natAbs
  let len := bitsAux n n
  if len ≤ p then r
  else
    let s := len - p
    let q := n / 2 ^ s
    let rem := n % 2 ^ s
    let half := 2 ^ (s - 1)
    let q2 := if rem > half ∨ (rem = half ∧ q % 2 = 1) then q + 1 else q
    Int.sign r * ((q2 * 2 ^ s : Nat) : Int)

/-- Source `uint_to_float<in>`: `Float(static_cast<float>(x.rep()))`. -/
def uint_to_float {F : Type} (cvt : Int → F) (win : Nat) (x : UInt win) : Float F :=
  ⟨cvt x.rep⟩

/-- Source `sint_to_float<in>`, whose parameter the source declares as
`UInt<in> x`: `Float(static_cast<float>(x.rep()))`. -/
def sint_to_float {F : Type} (cvt : Int → F) (win : Nat) (x : UInt win) : Float F :=
  ⟨cvt x.rep⟩

/-- Source `uint_to_double<in>`: `Double(static_cast<double>(x.rep()))`. -/
def uint_to_double {F : Type} (cvt : Int → F) (win : Nat) (x : UInt win) : Double F :=
  ⟨cvt x.rep⟩

/-- Source `sint_to_double<in>`, whose parameter the source declares as
`UInt<in> x`: `Double(static_cast<double>(x.rep()))`. -/
def sint_to_double {F : Type} (cvt : Int → F) (win : Nat) (x : UInt win) : Double F :=
  ⟨cvt x.rep⟩

/-! ## Value-identity cast (`cast.h`, lines 131-136 and 253-258) -/

/-- Modelled from the spec: what `refl_cast` asks of a value type `T`:
`hasRefs<T>()`, whether the type owns shared storage, and the state of the
local `x` after the call `x.copy()` (for `Integer`, a duplicate of the digit
storage). -/
structure Kind (T : Type) where
  hasRefs : Bool
  copy : T → T

/-- Modelled from the spec: `Integer::copy()`, which duplicates the storage and
leaves the number as it is. -/
def Integer.copy (x : Integer) : Integer := ⟨x.getValue⟩

/-- The value kind of `Integer`, which owns storage. -/
def integerKind : Kind Integer := ⟨true, Integer.copy⟩

/-- The value kind of `UInt<w>`, with no shared storage (`copy` is never
called). -/
def uintKind (w : Nat) : Kind (UInt w) := ⟨false, fun x => x⟩

/-- The value kind of `SInt<w>`, with no shared storage. -/
def sintKind (w : Nat) : Kind (SInt w) := ⟨false, fun x => x⟩

/-- The value kind of a float or double, with no shared storage. -/
def floatKind (F : Type) : Kind (Double F) := ⟨false, fun x => x⟩

/-- Source `refl_cast<T>`: `if constexpr (hasRefs<T>()) { x.copy(); } return x;`. -/
def refl_cast {T : Type} (k : Kind T) (x : T) : T :=
  let x1 := if k.hasRefs then k.copy x else x
  x1

/-- Source `refl_cast_maybe<T>`:
`if constexpr (hasRefs<T>()) { x.copy(); } return Maybe<T>(x);`. -/
def refl_cast_maybe {T : Type} (k : Kind T) (x : T) : Option T :=
  let x1 := if k.hasRefs then k.copy x else x
  some x1

/-! ## Arithmetic of the conversions -/

theorem stdRepBits_ge (w : Nat) : w ≤ stdRepBits w := lp64.repBits_ge w

theorem toUnsigned_nonneg (k : Nat) (i : Int) : 0 ≤ toUnsigned k i :=
  Int.emod_nonneg _ (by positivity)

theorem toUnsigned_lt (k : Nat) (i : Int) : toUnsigned k i < 2 ^ k :=
  Int.emod_lt_of_pos _ (by positivity)

theorem toSigned_ge (k : Nat) (i : Int) : -(2 ^ k) ≤ 2 * toSigned k i := by
  have h0 := toUnsigned_nonneg k i
  have h1 := toUnsigned_lt k i
  unfold toUnsigned at h0 h1
  unfold toSigned
  split_ifs <;> omega

theorem toSigned_lt (k : Nat) (i : Int) : 2 * toSigned k i < 2 ^ k := by
  have h0 := toUnsigned_nonneg k i
  have h1 := toUnsigned_lt k i
  unfold toUnsigned at h0 h1
  unfold toSigned
  split_ifs <;> omega

theorem two_pow_le {a b : Nat} (hab : a ≤ b) : (2 : Int) ^ a ≤ 2 ^ b :=
  pow_le_pow_right₀ (by norm_num) hab

theorem two_pow_pos (a : Nat) : (0 : Int) < 2 ^ a := by positivity

theorem two_mul_two_pow_pred {w : Nat} (hw : 1 ≤ w) : (2 : Int) * 2 ^ (w - 1) = 2 ^ w := by
  obtain ⟨k, rfl⟩ : ∃ k, w = k + 1 := ⟨w - 1, by omega⟩
  simp [pow_succ, mul_comm]

theorem two_pow_pred_le (w : Nat) : (2 : Int) ^ (w - 1) ≤ 2 ^ w :=
  two_pow_le (Nat.sub_le w 1)

theorem toUnsigned_eq {k : Nat} {i : Int} (h0 : 0 ≤ i) (h1 : i < 2 ^ k) :
    toUnsigned k i = i :=
  Int.emod_eq_of_lt h0 h1

theorem toSigned_eq {k : Nat} {i : Int} (h0 : -(2 ^ k) ≤ 2 * i) (h1 : 2 * i < 2 ^ k) :
    toSigned k i = i := by
  have hp := two_pow_pos k
  unfold toSigned
  rcases lt_or_le i 0 with hneg | hpos
  · have hm : i % 2 ^ k = i + 2 ^ k := by
      rw [← Int.add_emod_self]
      exact Int.emod_eq_of_lt (by omega) (by omega)
    rw [hm, if_neg (by omega)]
    omega
  · have hm : i % 2 ^ k = i := Int.emod_eq_of_lt hpos (by omega)
    rw [hm, if_pos (by omega)]

/-- A value in the unsigned range of `w` bits survives the conversion to a
storage type of `k ≥ w` bits followed by the reduction to `w` bits. -/
theorem uint_ofRep_storage_val {w k : Nat} (hk : w ≤ k) {v : Int} (h0 : 0 ≤ v)
    (h1 : v < 2 ^ w) : (UInt.ofRep w (toUnsigned k v)).val = v := by
  have hle := two_pow_le hk
  show toUnsigned w (toUnsigned k v) = v
  have e1 : toUnsigned k v = v := toUnsigned_eq h0 (by omega)
  rw [e1]
  exact toUnsigned_eq h0 h1

/-- A value in the signed range of `w` bits survives the conversion to a
storage type of `k ≥ w` bits followed by the reduction to `w` bits. -/
theorem sint_ofRep_storage_val {w k : Nat} (hk : w ≤ k) {v : Int} (h0 : -(2 ^ w) ≤ 2 * v)
    (h1 : 2 * v < 2 ^ w) : (SInt.ofRep w (toSigned k v)).val = v := by
  have hle := two_pow_le hk
  show toSigned w (toSigned k v) = v
  have e1 : toSigned k v = v := toSigned_eq (by omega) (by omega)
  rw [e1]
  exact toSigned_eq h0 h1

/-- An `SInt<w>` of width at least 1 lies between `minValRep` and `maxValRep`. -/
theorem sint_val_bounds {w : Nat} (hw : 1 ≤ w) (x : SInt w) :
    SInt.minValRep w ≤ x.val ∧ x.val ≤ SInt.maxValRep w := by
  have h2 := two_mul_two_pow_pred hw
  have hge := x.ge
  have hlt := x.lt
  unfold SInt.minValRep SInt.maxValRep
  constructor
  · omega
  · omega

theorem two_mul_two_pow_pred_le {a b : Nat} (hab : a < b) :
    (2 : Int) * 2 ^ (a - 1) ≤ 2 ^ b := by
  have h1 : (2 : Int) * 2 ^ (a - 1) = 2 ^ (a - 1 + 1) := by rw [pow_succ, mul_comm]
  rw [h1]
  exact two_pow_le (by omega)

/-! ## Values of the unchecked casts on representable inputs -/

theorem uint_to_uint_val (h : Host) {win wout : Nat} (x : UInt win)
    (h1 : x.val < 2 ^ wout) : (uint_to_uint h win wout x).val = x.val :=
  uint_ofRep_storage_val (v := x.val) (h.repBits_ge wout) x.nonneg h1

theorem sint_to_uint_val (h : Host) {win wout : Nat} (x : SInt win)
    (h0 : 0 ≤ x.val) (h1 : x.val < 2 ^ wout) : (sint_to_uint h win wout x).val = x.val :=
  uint_ofRep_storage_val (v := x.val) (h.repBits_ge wout) h0 h1

theorem uint_to_sint_val (h : Host) {win wout : Nat} (x : UInt win)
    (h1 : 2 * x.val < 2 ^ wout) : (uint_to_sint h win wout x).val = x.val := by
  have h0 := x.nonneg
  have hp := two_pow_pos wout
  exact sint_ofRep_storage_val (v := x.val) (h.repBits_ge wout) (by omega) h1

theorem sint_to_sint_val (h : Host) {win wout : Nat} (x : SInt win)
    (h0 : -(2 ^ wout) ≤ 2 * x.val) (h1 : 2 * x.val < 2 ^ wout) :
    (sint_to_sint h win wout x).val = x.val :=
  sint_ofRep_storage_val (v := x.val) (h.repBits_ge wout) h0 h1

/-! ## The checked casts as a range test on the value -/

theorem uint_to_uint_maybe_eq (h : Host) (win wout : Nat) (x : UInt win) :
    uint_to_uint_maybe h win wout x =
      if win ≤ wout ∨ x.val ≤ 2 ^ wout - 1 then some (uint_to_uint h win wout x) else none := by
  have hpo := two_pow_pos wout
  by_cases hw : wout ≥ win
  · simp [uint_to_uint_maybe, hw]
  · have hle := two_pow_le (Nat.le_of_lt (Nat.lt_of_not_ge hw))
    have hlim : (UInt.ofRep win (toUnsigned (h.repBits win) (UInt.maxValRep wout))).val
        = 2 ^ wout - 1 :=
      uint_ofRep_storage_val (h.repBits_ge win) (by unfold UInt.maxValRep; omega)
        (by unfold UInt.maxValRep; omega)
    simp only [uint_to_uint_maybe, hw, if_false, UInt.leq, UInt.rep, hlim, decide_eq_true_eq]
    have hw2 : ¬ win ≤ wout := hw
    simp only [hw2, false_or]

theorem sint_to_sint_maybe_eq (h : Host) (win wout : Nat) (x : SInt win) :
    sint_to_sint_maybe h win wout x =
      if win ≤ wout ∨ (-(2 ^ (wout - 1)) ≤ x.val ∧ x.val ≤ 2 ^ (wout - 1) - 1)
      then some (sint_to_sint h win wout x) else none := by
  have hpo := two_pow_pos (wout - 1)
  by_cases hw : wout ≥ win
  · simp [sint_to_sint_maybe, hw]
  · have hle := two_mul_two_pow_pred_le (Nat.lt_of_not_ge hw)
    have hlo : (SInt.ofRep win (toSigned (h.repBits win) (SInt.minValRep wout))).val
        = -(2 ^ (wout - 1)) :=
      sint_ofRep_storage_val (h.repBits_ge win) (by unfold SInt.minValRep; omega)
        (by unfold SInt.minValRep; omega)
    have hup : (SInt.ofRep win (toSigned (h.repBits win) (SInt.maxValRep wout))).val
        = 2 ^ (wout - 1) - 1 :=
      sint_ofRep_storage_val (h.repBits_ge win) (by unfold SInt.maxValRep; omega)
        (by unfold SInt.maxValRep; omega)
    have hw2 : ¬ win ≤ wout := hw
    simp only [sint_to_sint_maybe, hw, if_false, SInt.leq, SInt.rep, hlo, hup,
      Bool.and_eq_true, decide_eq_true_eq, hw2, false_or]

theorem uint_to_sint_maybe_eq (h : Host) (win wout : Nat) (x : UInt win) :
    uint_to_sint_maybe h win wout x =
      if win < wout ∨ x.val ≤ 2 ^ (wout - 1) - 1
      then some (uint_to_sint h win wout x) else none := by
  have hpo := two_pow_pos (wout - 1)
  by_cases hw : wout > win
  · simp [uint_to_sint_maybe, hw]
  · have hle : (2 : Int) ^ (wout - 1) ≤ 2 ^ win := two_pow_le (by omega)
    have hup : (UInt.ofRep win (toUnsigned (h.repBits win) (SInt.maxValRep wout))).val
        = 2 ^ (wout - 1) - 1 :=
      uint_ofRep_storage_val (h.repBits_ge win) (by unfold SInt.maxValRep; omega)
        (by unfold SInt.maxValRep; omega)
    have hw2 : ¬ win < wout := hw
    simp only [uint_to_sint_maybe, hw, if_false, UInt.leq, UInt.rep, hup,
      decide_eq_true_eq, hw2, false_or]

theorem sint_ofRep_zero_val (w k : Nat) : (SInt.ofRep w (toSigned k 0)).val = 0 := by
  have hk := two_pow_pos k
  have hw := two_pow_pos w
  have e1 : toSigned k 0 = 0 := toSigned_eq (by omega) (by omega)
  show toSigned w (toSigned k 0) = 0
  rw [e1]
  exact toSigned_eq (by omega) (by omega)

theorem sint_to_uint_maybe_eq (h : Host) (win wout : Nat) (x : SInt win) :
    sint_to_uint_maybe h win wout x =
      if x.val < 0 then none
      else if win ≤ wout ∨ x.val ≤ 2 ^ wout - 1
      then some (sint_to_uint h win wout x) else none := by
  have hpo := two_pow_pos wout
  have hz := sint_ofRep_zero_val win (h.repBits win)
  by_cases hneg : x.val < 0
  · simp [sint_to_uint_maybe, SInt.less, SInt.rep, hz, hneg]
  · by_cases hw : wout ≥ win
    · simp [sint_to_uint_maybe, SInt.less, SInt.rep, hz, hneg, hw]
    · have hle : (2 : Int) * 2 ^ wout ≤ 2 ^ win := by
        have h1 : (2 : Int) * 2 ^ wout = 2 ^ (wout + 1) := by rw [pow_succ, mul_comm]
        rw [h1]
        exact two_pow_le (by omega)
      have hup : (SInt.ofRep win (toSigned (h.repBits win) (UInt.maxValRep wout))).val
          = 2 ^ wout - 1 :=
        sint_ofRep_storage_val (h.repBits_ge win) (by unfold UInt.maxValRep; omega)
          (by unfold UInt.maxValRep; omega)
      have hw2 : ¬ win ≤ wout := hw
      simp only [sint_to_uint_maybe, SInt.less, SInt.rep, hz, hneg, decide_False,
        Bool.false_eq_true, if_false, hw, SInt.leq, hup, decide_eq_true_eq, hw2, false_or]

/-! ## Checked fixed-width casts -/

/-- Claim C1: `uint_to_uint_maybe<in,out>(x)` is present when `out ≥ in`; when
`out < in` it is present exactly when `x ≤ 2^out - 1`; and a present result has
the numeric value of `x`. -/
theorem uint_to_uint_maybe_spec (h : Host) (win wout : Nat) (x : UInt win) :
    (win ≤ wout → (uint_to_uint_maybe h win wout x).isSome = true) ∧
    (wout < win →
      ((uint_to_uint_maybe h win wout x).isSome = true ↔ x.val ≤ 2 ^ wout - 1)) ∧
    (∀ y, uint_to_uint_maybe h win wout x = some y → y.val = x.val) := by
  have hx1 := x.lt
  rw [uint_to_uint_maybe_eq]
  refine ⟨fun hw => by simp [hw], fun hw => ?_, fun y hy => ?_⟩
  · have hw2 : ¬ win ≤ wout := by omega
    by_cases hb : x.val ≤ 2 ^ wout - 1 <;> simp [hw2, hb]
  · split_ifs at hy with hc
    simp only [Option.some.injEq] at hy
    rw [← hy]
    apply uint_to_uint_val
    rcases hc with hc | hc
    · have := two_pow_le hc
      omega
    · omega

/-- Claim C2: `sint_to_sint_maybe<in,out>(x)` is present when `out ≥ in`; when
`out < in` it is present exactly when `-2^(out-1) ≤ x ≤ 2^(out-1) - 1`, both
bounds included; and a present result has the signed value of `x`. -/
theorem sint_to_sint_maybe_spec (h : Host) (win wout : Nat) (hout : 1 ≤ wout)
    (x : SInt win) :
    (win ≤ wout → (sint_to_sint_maybe h win wout x).isSome = true) ∧
    (wout < win →
      ((sint_to_sint_maybe h win wout x).isSome = true ↔
        (-(2 ^ (wout - 1)) ≤ x.val ∧ x.val ≤ 2 ^ (wout - 1) - 1))) ∧
    (∀ y, sint_to_sint_maybe h win wout x = some y → y.val = x.val) := by
  have hx0 := x.ge
  have hx1 := x.lt
  have h2 := two_mul_two_pow_pred hout
  rw [sint_to_sint_maybe_eq]
  refine ⟨fun hw => by simp [hw], fun hw => ?_, fun y hy => ?_⟩
  · have hw2 : ¬ win ≤ wout := by omega
    by_cases hb : -(2 ^ (wout - 1)) ≤ x.val ∧ x.val ≤ 2 ^ (wout - 1) - 1 <;> simp [hw2, hb]
  · split_ifs at hy with hc
    simp only [Option.some.injEq] at hy
    rw [← hy]
    rcases hc with hc | hc
    · have := two_pow_le hc
      exact sint_to_sint_val h x (by omega) (by omega)
    · exact sint_to_sint_val h x (by omega) (by omega)

/-- Witness of C2: an `SInt<8>` holding the 4-bit minimum `-8`, narrowed to 4
bits. -/
theorem sint_to_sint_maybe_spec_witness :
    (1 ≤ 4) ∧
    ((sint_to_sint_maybe lp64 8 4 ⟨-8, by decide, by decide⟩).isSome = true ↔
        (-(2 ^ (4 - 1)) ≤ (-8 : Int) ∧ (-8 : Int) ≤ 2 ^ (4 - 1) - 1)) :=
  ⟨by decide,
   (sint_to_sint_maybe_spec lp64 8 4 (by decide) ⟨-8, by decide, by decide⟩).2.1 (by decide)⟩

/-- Claim C3: `sint_to_uint_maybe<in,out>(x)` is absent for every negative `x`,
whatever `out`; for `x ≥ 0` it is present when `out ≥ in`, and when `out < in`
exactly when `x ≤ 2^out - 1`; a present result has the numeric value of `x`. -/
theorem sint_to_uint_maybe_spec (h : Host) (win wout : Nat) (x : SInt win) :
    (x.val < 0 → sint_to_uint_maybe h win wout x = none) ∧
    (0 ≤ x.val → win ≤ wout → (sint_to_uint_maybe h win wout x).isSome = true) ∧
    (0 ≤ x.val → wout < win →
      ((sint_to_uint_maybe h win wout x).isSome = true ↔ x.val ≤ 2 ^ wout - 1)) ∧
    (∀ y, sint_to_uint_maybe h win wout x = some y → y.val = x.val) := by
  have hx1 := x.lt
  rw [sint_to_uint_maybe_eq]
  refine ⟨fun hn => by simp [hn], fun h0 hw => ?_, fun h0 hw => ?_, fun y hy => ?_⟩
  · have hn : ¬ x.val < 0 := by omega
    simp [hn, hw]
  · have hn : ¬ x.val < 0 := by omega
    have hw2 : ¬ win ≤ wout := by omega
    by_cases hb : x.val ≤ 2 ^ wout - 1 <;> simp [hn, hw2, hb]
  · split_ifs at hy with hn hc
    simp only [Option.some.injEq] at hy
    rw [← hy]
    rcases hc with hc | hc
    · have := two_pow_le hc
      have := two_pow_pos win
      exact sint_to_uint_val h x (by omega) (by omega)
    · exact sint_to_uint_val h x (by omega) (by omega)

/-- The specification's example for C3: the `SInt<8>` value `-1` cast to
`UInt<8>` is absent. -/
theorem sint_to_uint_maybe_minus_one :
    sint_to_uint_maybe lp64 8 8 ⟨-1, by decide, by decide⟩ = none := by
  decide

/-- Claim C4: `uint_to_sint_maybe<in,out>(x)` is present when `out > in`; when
`out ≤ in` (equal widths included) it is present exactly when
`x ≤ 2^(out-1) - 1`; a present result is non-negative and has the value of `x`. -/
theorem uint_to_sint_maybe_spec (h : Host) (win wout : Nat) (x : UInt win) :
    (win < wout → (uint_to_sint_maybe h win wout x).isSome = true) ∧
    (wout ≤ win →
      ((uint_to_sint_maybe h win wout x).isSome = true ↔ x.val ≤ 2 ^ (wout - 1) - 1)) ∧
    (∀ y, uint_to_sint_maybe h win wout x = some y → 0 ≤ y.val ∧ y.val = x.val) := by
  have hx0 := x.nonneg
  have hx1 := x.lt
  rw [uint_to_sint_maybe_eq]
  refine ⟨fun hw => by simp [hw], fun hw => ?_, fun y hy => ?_⟩
  · have hw2 : ¬ win < wout := by omega
    by_cases hb : x.val ≤ 2 ^ (wout - 1) - 1 <;> simp [hw2, hb]
  · split_ifs at hy with hc
    simp only [Option.some.injEq] at hy
    have hv : (uint_to_sint h win wout x).val = x.val := by
      apply uint_to_sint_val
      rcases hc with hc | hc
      · have := two_mul_two_pow_pred_le hc
        have h2 : (2 : Int) * 2 ^ win ≤ 2 ^ wout := by
          have h1 : (2 : Int) * 2 ^ win = 2 ^ (win + 1) := by rw [pow_succ, mul_comm]
          rw [h1]
          exact two_pow_le hc
        omega
      · rcases Nat.eq_zero_or_pos wout with hz | hpos
        · subst hz
          simp only [Nat.zero_sub, pow_zero] at hc ⊢
          omega
        · have := two_mul_two_pow_pred hpos
          omega
    rw [← hy, hv]
    exact ⟨hx0, rfl⟩

/-! ## Checked casts from arbitrary-precision integers -/

theorem bitsAux_le_iff (fuel : Nat) : ∀ n k : Nat, n ≤ fuel → (bitsAux fuel n ≤ k ↔ n < 2 ^ k) := by
  induction fuel with
  | zero =>
    intro n k hn
    have hn0 : n = 0 := by omega
    subst hn0
    simp [bitsAux]
  | succ f ih =>
    intro n k hn
    by_cases hz : n = 0
    · subst hz
      simp [bitsAux]
    · have hdiv : n / 2 ≤ f := by omega
      cases k with
      | zero =>
        simp only [bitsAux, hz, if_false, pow_zero]
        omega
      | succ k =>
        simp only [bitsAux, hz, if_false, Nat.add_le_add_iff_right]
        rw [ih (n / 2) k hdiv, pow_succ]
        omega

/-- For a non-negative `op` and a width of at least 1, GMP's bit count is at most
`k` exactly when `op < 2^k`. -/
theorem mpz_sizeinbase2_le_iff {op : Int} (h0 : 0 ≤ op) {k : Nat} (hk : 1 ≤ k) :
    mpz_sizeinbase2 op ≤ k ↔ op < 2 ^ k := by
  unfold mpz_sizeinbase2
  by_cases hz : op = 0
  · subst hz
    have := two_pow_pos k
    simp only [if_true]
    omega
  · simp only [hz, if_false]
    rw [bitsAux_le_iff _ _ _ (le_refl _)]
    have hc : ((op.natAbs : Nat) : Int) = op := Int.natAbs_of_nonneg h0
    constructor
    · intro hlt
      have : ((op.natAbs : Nat) : Int) < ((2 ^ k : Nat) : Int) := by exact_mod_cast hlt
      rw [hc] at this
      exact_mod_cast this
    · intro hlt
      have : ((op.natAbs : Nat) : Int) < ((2 ^ k : Nat) : Int) := by
        rw [hc]
        exact_mod_cast hlt
      exact_mod_cast this

theorem integer_to_uint_val (h : Host) {wout : Nat} (x : Integer)
    (h0 : 0 ≤ x.getValue) (h1 : x.getValue < 2 ^ wout) :
    (integer_to_uint h wout x).val = x.getValue := by
  have hle := two_pow_le (h.repBits_ge wout)
  show toUnsigned wout (x.exportI false (h.repBits wout)) = x.getValue
  have e1 : x.exportI false (h.repBits wout) = x.getValue := by
    simp only [Integer.exportI, Bool.false_eq_true, if_false]
    exact toUnsigned_eq h0 (by omega)
  rw [e1]
  exact toUnsigned_eq h0 h1

theorem integer_to_uint_maybe_eq (h : Host) (wout : Nat) (hout : 1 ≤ wout) (x : Integer) :
    integer_to_uint_maybe h wout x =
      if 0 ≤ x.getValue ∧ x.getValue ≤ 2 ^ wout - 1
      then some (integer_to_uint h wout x) else none := by
  unfold integer_to_uint_maybe integer_to_uint Integer.isNatural
  by_cases h0 : 0 ≤ x.getValue
  · have hiff := mpz_sizeinbase2_le_iff h0 hout
    by_cases h1 : x.getValue ≤ 2 ^ wout - 1
    · have hs : mpz_sizeinbase2 x.getValue ≤ wout := hiff.2 (by omega)
      simp [h0, h1, hs]
    · have hs : ¬ mpz_sizeinbase2 x.getValue ≤ wout := fun hc => h1 (by have := hiff.1 hc; omega)
      simp [h0, h1, hs]
  · simp [h0]

/-- Claim C5: For a width `out ≥ 1`, `integer_to_uint_maybe<out>(x)` is present
exactly when `0 ≤ x ≤ 2^out - 1`, and a present result has the value `x`. -/
theorem integer_to_uint_maybe_spec (h : Host) (wout : Nat) (hout : 1 ≤ wout) (x : Integer) :
    ((integer_to_uint_maybe h wout x).isSome = true ↔
      (0 ≤ x.getValue ∧ x.getValue ≤ 2 ^ wout - 1)) ∧
    (∀ y, integer_to_uint_maybe h wout x = some y → y.val = x.getValue) := by
  rw [integer_to_uint_maybe_eq h wout hout]
  refine ⟨?_, fun y hy => ?_⟩
  · by_cases hb : 0 ≤ x.getValue ∧ x.getValue ≤ 2 ^ wout - 1 <;> simp [hb]
  · split_ifs at hy with hc
    simp only [Option.some.injEq] at hy
    rw [← hy]
    exact integer_to_uint_val h x hc.1 (by omega)

/-- Witness of C5: at `out = 8` the integer 255 is accepted. -/
theorem integer_to_uint_maybe_spec_witness :
    (1 ≤ 8) ∧
    ((integer_to_uint_maybe lp64 8 ⟨255⟩).isSome = true ↔
      ((0 : Int) ≤ 255 ∧ (255 : Int) ≤ 2 ^ 8 - 1)) :=
  ⟨by decide, (integer_to_uint_maybe_spec lp64 8 (by decide) ⟨255⟩).1⟩

/-- The specification's example for C5: at `out = 8`, 255 is present with value
255, zero is present, and 256 is absent. -/
theorem integer_to_uint_maybe_examples :
    (integer_to_uint_maybe lp64 8 ⟨255⟩).map UInt.val = some 255 ∧
    (integer_to_uint_maybe lp64 8 ⟨0⟩).map UInt.val = some 0 ∧
    integer_to_uint_maybe lp64 8 ⟨256⟩ = none := by
  decide

theorem mpz_get_si_of_fits (h : Host) (op : Int) (hf : mpz_fits_slong_p h op = true) :
    mpz_get_si h op = op := by
  simp [mpz_get_si, hf]

theorem exportI_signed_eq {k : Nat} (x : Integer) (h0 : -(2 ^ k) ≤ 2 * x.getValue)
    (h1 : 2 * x.getValue < 2 ^ k) : x.exportI true k = x.getValue := by
  simp only [Integer.exportI, if_true]
  exact toSigned_eq h0 h1

theorem integer_to_sint_val (h : Host) {wout : Nat} (x : Integer)
    (h0 : -(2 ^ wout) ≤ 2 * x.getValue) (h1 : 2 * x.getValue < 2 ^ wout) :
    (integer_to_sint h wout x).val = x.getValue := by
  have hle := two_pow_le (h.repBits_ge wout)
  show toSigned wout (x.exportI true (h.repBits wout)) = x.getValue
  rw [exportI_signed_eq x (by omega) (by omega)]
  exact toSigned_eq h0 h1

/-- On every host, an integer inside the range of `SInt<out>` is accepted by
`integer_to_sint_maybe<out>`, on the native-word path and on the export path
alike, and the result is that of the unchecked cast. -/
theorem integer_to_sint_maybe_in_range (h : Host) (wout : Nat) (hout : 1 ≤ wout)
    (x : Integer) (hlo : -(2 ^ (wout - 1)) ≤ x.getValue)
    (hhi : x.getValue ≤ 2 ^ (wout - 1) - 1) :
    integer_to_sint_maybe h wout x = some (integer_to_sint h wout x) := by
  have h2 := two_mul_two_pow_pred hout
  unfold integer_to_sint_maybe
  by_cases hf : mpz_fits_slong_p h x.getValue = true
  · simp only [hf, if_true, mpz_get_si_of_fits h _ hf, SInt.minValRep, SInt.maxValRep, hlo,
      hhi, decide_True, Bool.and_self]
    rfl
  · by_cases hw : wout ≤ h.longBits
    · exfalso
      apply hf
      have hle : (2 : Int) ^ (wout - 1) ≤ 2 ^ (h.longBits - 1) := two_pow_le (by omega)
      simp only [mpz_fits_slong_p, decide_eq_true_eq]
      constructor
      · omega
      · omega
    · have hle := two_pow_le (h.repBits_ge wout)
      have hr : x.exportI true (h.repBits wout) = x.getValue :=
        exportI_signed_eq x (by omega) (by omega)
      have hchk : Integer.ofRep (x.exportI true (h.repBits wout)) = x := by
        rw [hr]
        rfl
      simp only [hf, hw, if_false, hchk, decide_True, if_true]
      rfl

/-- An integer outside the range of `SInt<out>` is refused when `out` is at most
the bits of a `long`, or when the storage type has exactly `out` bits. -/
theorem integer_to_sint_maybe_out_of_range (h : Host) (wout : Nat) (hout : 1 ≤ wout)
    (hhost : wout ≤ h.longBits ∨ h.repBits wout = wout) (x : Integer)
    (hx : ¬ (-(2 ^ (wout - 1)) ≤ x.getValue ∧ x.getValue ≤ 2 ^ (wout - 1) - 1)) :
    integer_to_sint_maybe h wout x = none := by
  have h2 := two_mul_two_pow_pred hout
  unfold integer_to_sint_maybe
  by_cases hf : mpz_fits_slong_p h x.getValue = true
  · have hc : ¬ (SInt.minValRep wout ≤ x.getValue ∧ x.getValue ≤ SInt.maxValRep wout) := hx
    simp only [hf, if_true, mpz_get_si_of_fits h _ hf]
    by_cases h1 : SInt.minValRep wout ≤ x.getValue
    · have h3 : ¬ x.getValue ≤ SInt.maxValRep wout := fun hc2 => hc ⟨h1, hc2⟩
      simp [h1, h3]
    · simp [h1]
  · by_cases hw : wout ≤ h.longBits
    · simp [hf, hw]
    · have hrep : h.repBits wout = wout := by
        rcases hhost with hh | hh
        · exact absurd hh hw
        · exact hh
      have hne : ¬ Integer.ofRep (x.exportI true (h.repBits wout)) = x := by
        intro heq
        have hv : toSigned wout x.getValue = x.getValue := by
          have := congrArg Integer.getValue heq
          simpa [Integer.ofRep, Integer.exportI, hrep] using this
        have hge := toSigned_ge wout x.getValue
        have hlt := toSigned_lt wout x.getValue
        rw [hv] at hge hlt
        apply hx
        constructor
        · omega
        · omega
      simp [hf, hw, hne]

/-- Where `out` is at most the bits of a `long` (a 64-bit `long` and any width up
to 64), or the storage type has exactly `out` bits, `integer_to_sint_maybe<out>`
is present exactly on the range of `SInt<out>` and holds the value. -/
theorem integer_to_sint_maybe_exact_host (h : Host) (wout : Nat) (hout : 1 ≤ wout)
    (hhost : wout ≤ h.longBits ∨ h.repBits wout = wout) (x : Integer) :
    ((integer_to_sint_maybe h wout x).isSome = true ↔
      (-(2 ^ (wout - 1)) ≤ x.getValue ∧ x.getValue ≤ 2 ^ (wout - 1) - 1)) ∧
    (∀ y, integer_to_sint_maybe h wout x = some y → y.val = x.getValue) := by
  have h2 := two_mul_two_pow_pred hout
  by_cases hx : -(2 ^ (wout - 1)) ≤ x.getValue ∧ x.getValue ≤ 2 ^ (wout - 1) - 1
  · rw [integer_to_sint_maybe_in_range h wout hout x hx.1 hx.2]
    refine ⟨by simp [hx], fun y hy => ?_⟩
    simp only [Option.some.injEq] at hy
    rw [← hy]
    exact integer_to_sint_val h x (by omega) (by omega)
  · rw [integer_to_sint_maybe_out_of_range h wout hout hhost x hx]
    simp [hx]

/-- Instance of the exact-host result: a 64-bit `long`, width 40, value `2^39`. -/
theorem integer_to_sint_maybe_exact_host_witness :
    (1 ≤ 40) ∧ (40 ≤ lp64.longBits ∨ lp64.repBits 40 = 40) ∧
    ((integer_to_sint_maybe lp64 40 ⟨2 ^ 39⟩).isSome = true ↔
      (-(2 ^ (40 - 1)) ≤ (2 : Int) ^ 39 ∧ (2 : Int) ^ 39 ≤ 2 ^ (40 - 1) - 1)) :=
  ⟨by decide, Or.inl (by decide),
   (integer_to_sint_maybe_exact_host lp64 40 (by decide) (Or.inl (by decide)) ⟨2 ^ 39⟩).1⟩

/-- Claim C6, where the code departs from it: With a 32-bit `long` and the width 40,
stored in 64 bits, the integer `2^39` is above the maximum `2^39 - 1` of
`SInt<40>`, does not fit a `long`, is exported into the 64-bit storage unchanged
and so passes the re-import comparison: the cast is present, and holds
`-2^39`. -/
theorem integer_to_sint_maybe_ilp32_w40 :
    ¬ ((2 : Int) ^ 39 ≤ SInt.maxValRep 40) ∧
    mpz_fits_slong_p ilp32 (2 ^ 39) = false ∧
    ilp32.repBits 40 = 64 ∧
    (integer_to_sint_maybe ilp32 40 ⟨2 ^ 39⟩).map SInt.val = some (-(2 ^ 39)) := by
  decide

/-- The integer `2^64` is refused at width 64, with a 32-bit or 64-bit `long` and
64-bit fields stored in 64 bits. -/
theorem integer_to_sint_maybe_w64_two_pow_64 (h : Host)
    (hL : h.longBits = 32 ∨ h.longBits = 64) (h64 : h.repBits 64 = 64) :
    integer_to_sint_maybe h 64 ⟨2 ^ 64⟩ = none := by
  apply integer_to_sint_maybe_out_of_range h 64 (by norm_num)
  · rcases hL with hL | hL
    · exact Or.inr h64
    · exact Or.inl (by omega)
  · norm_num

/-- What the export path does with `2^64` at width 65, whatever the storage type
of `SInt<65>`, on a host whose `long` has at most 64 bits: with a storage of
exactly 65 bits the cast is absent; with a wider storage the exported value is
`2^64`, the comparison with `x` succeeds, and the cast is present and holds
`-2^64`. -/
theorem integer_to_sint_maybe_w65_storage (h : Host) (hL : h.longBits ≤ 64) :
    (h.repBits 65 = 65 → integer_to_sint_maybe h 65 ⟨2 ^ 64⟩ = none) ∧
    (65 < h.repBits 65 →
      (integer_to_sint_maybe h 65 ⟨2 ^ 64⟩).map SInt.val = some (-(2 ^ 64))) := by
  constructor
  · intro hrep
    exact integer_to_sint_maybe_out_of_range h 65 (by norm_num) (Or.inr hrep) ⟨2 ^ 64⟩
      (by norm_num)
  · intro hrep
    have hle : (2 : Int) ^ (h.longBits - 1) ≤ 2 ^ 63 := two_pow_le (by omega)
    have hle2 : (2 : Int) ^ 66 ≤ 2 ^ (h.repBits 65) := two_pow_le (by omega)
    have hf : ¬ mpz_fits_slong_p h (2 ^ 64) = true := by
      simp only [mpz_fits_slong_p, decide_eq_true_eq, not_and, not_le]
      intro _
      omega
    have hw : ¬ 65 ≤ h.longBits := by omega
    have hr : (⟨2 ^ 64⟩ : Integer).exportI true (h.repBits 65) = 2 ^ 64 :=
      exportI_signed_eq ⟨2 ^ 64⟩ (by show -(2 ^ (h.repBits 65)) ≤ 2 * (2 : Int) ^ 64; omega)
        (by show 2 * (2 : Int) ^ 64 < 2 ^ (h.repBits 65); omega)
    have hchk : Integer.ofRep (2 ^ 64) = ⟨2 ^ 64⟩ := rfl
    have hval : (SInt.ofRep 65 (2 ^ 64)).val = -(2 ^ 64) := by decide
    unfold integer_to_sint_maybe
    simp only [hf, hw, if_false, hr, hchk, decide_True, if_true, Bool.false_eq_true,
      Option.map_some', hval]

/-- Instance of the storage result on the host with a 64-bit `long`, where the
65-bit field is stored in 128 bits. -/
theorem integer_to_sint_maybe_w65_storage_witness :
    (lp64.longBits ≤ 64) ∧ (65 < lp64.repBits 65) ∧
    (integer_to_sint_maybe lp64 65 ⟨2 ^ 64⟩).map SInt.val = some (-(2 ^ 64)) :=
  ⟨by decide, by decide, (integer_to_sint_maybe_w65_storage lp64 (by decide)).2 (by decide)⟩

/-- Claim C8: BigInt fidelity: for a width `n ≥ 1`, casting a `UInt<n>` or an
`SInt<n>` (negative values and the minimum included) to an integer and back
with the checked cast returns the original value, present. -/
theorem bigint_fidelity (h : Host) (n : Nat) (hn : 1 ≤ n) :
    (∀ x : UInt n, integer_to_uint_maybe h n (uint_to_integer n x) = some x) ∧
    (∀ x : SInt n, integer_to_sint_maybe h n (sint_to_integer n x) = some x) := by
  have h2 := two_mul_two_pow_pred hn
  constructor
  · intro x
    have hx0 := x.nonneg
    have hx1 := x.lt
    have hg : (uint_to_integer n x).getValue = x.val := rfl
    rw [integer_to_uint_maybe_eq h n hn]
    have hc : 0 ≤ (uint_to_integer n x).getValue ∧
        (uint_to_integer n x).getValue ≤ 2 ^ n - 1 := by
      rw [hg]
      constructor
      · omega
      · omega
    rw [if_pos hc]
    congr 1
    apply UInt.ext
    rw [integer_to_uint_val h _ hc.1 (by omega), hg]
  · intro x
    have hx0 := x.ge
    have hx1 := x.lt
    have hg : (sint_to_integer n x).getValue = x.val := rfl
    rw [integer_to_sint_maybe_in_range h n hn _ (by rw [hg]; omega) (by rw [hg]; omega)]
    congr 1
    apply SInt.ext
    rw [integer_to_sint_val h _ (by rw [hg]; omega) (by rw [hg]; omega), hg]

/-- Witness of C8 at width 8: the maximum of `UInt<8>` and the minimum of
`SInt<8>` come back unchanged. -/
theorem bigint_fidelity_witness :
    (1 ≤ 8) ∧
    integer_to_uint_maybe lp64 8 (uint_to_integer 8 ⟨255, by decide, by decide⟩)
      = some ⟨255, by decide, by decide⟩ ∧
    integer_to_sint_maybe lp64 8 (sint_to_integer 8 ⟨-128, by decide, by decide⟩)
      = some ⟨-128, by decide, by decide⟩ :=
  ⟨by decide, (bigint_fidelity lp64 8 (by decide)).1 _, (bigint_fidelity lp64 8 (by decide)).2 _⟩

/-! ## Round trips and widening -/

/-- Claim C9: Sign round trip: for `m ≥ n`, a non-negative `SInt<n>` is accepted by
`sint_to_uint_maybe<n,m>` and `uint_to_sint_maybe<m,n>` returns it; a negative
`SInt<n>` is refused by `sint_to_uint_maybe<n,m>` for every width `m`. -/
theorem sign_round_trip (h : Host) (n m : Nat) (hm : n ≤ m) (x : SInt n) :
    (0 ≤ x.val →
      ∃ u, sint_to_uint_maybe h n m x = some u ∧ uint_to_sint_maybe h m n u = some x) ∧
    (x.val < 0 → ∀ k, sint_to_uint_maybe h n k x = none) := by
  have hx1 := x.lt
  have hle := two_pow_le hm
  constructor
  · intro h0
    have hu : (sint_to_uint h n m x).val = x.val :=
      sint_to_uint_val h x h0 (by omega)
    have hhalf : x.val ≤ 2 ^ (n - 1) - 1 := by
      rcases Nat.eq_zero_or_pos n with hz | hpos
      · subst hz
        simp only [pow_zero] at hx1 ⊢
        omega
      · have := two_mul_two_pow_pred hpos
        omega
    refine ⟨sint_to_uint h n m x, ?_, ?_⟩
    · rw [sint_to_uint_maybe_eq]
      have hn : ¬ x.val < 0 := by omega
      simp [hn, hm]
    · rw [uint_to_sint_maybe_eq, if_pos (Or.inr (by rw [hu]; exact hhalf))]
      congr 1
      apply SInt.ext
      rw [uint_to_sint_val h _ (by rw [hu]; exact hx1), hu]
  · intro hneg k
    rw [sint_to_uint_maybe_eq]
    simp [hneg]

/-- Witness of C9: the `SInt<8>` value 127 through `UInt<16>` and back. -/
theorem sign_round_trip_witness :
    (8 ≤ 16) ∧
    ∃ u, sint_to_uint_maybe lp64 8 16 ⟨127, by decide, by decide⟩ = some u ∧
      uint_to_sint_maybe lp64 16 8 u = some ⟨127, by decide, by decide⟩ :=
  ⟨by decide,
   (sign_round_trip lp64 8 16 (by decide) ⟨127, by decide, by decide⟩).1 (by decide)⟩

/-- Claim C10: Widening is lossless: for `out ≥ in` the checked casts
`uint_to_uint_maybe` and `sint_to_sint_maybe` are present, hold the result of
the unchecked cast, and that result has the numeric value of the source
(negative signed values included). -/
theorem widening_lossless (h : Host) (win wout : Nat) (hw : win ≤ wout) :
    (∀ x : UInt win,
      uint_to_uint_maybe h win wout x = some (uint_to_uint h win wout x) ∧
      (uint_to_uint h win wout x).val = x.val) ∧
    (∀ x : SInt win,
      sint_to_sint_maybe h win wout x = some (sint_to_sint h win wout x) ∧
      (sint_to_sint h win wout x).val = x.val) := by
  have hle := two_pow_le hw
  constructor
  · intro x
    have hx1 := x.lt
    refine ⟨?_, uint_to_uint_val h x (by omega)⟩
    rw [uint_to_uint_maybe_eq, if_pos (Or.inl hw)]
  · intro x
    have hx0 := x.ge
    have hx1 := x.lt
    refine ⟨?_, sint_to_sint_val h x (by omega) (by omega)⟩
    rw [sint_to_sint_maybe_eq, if_pos (Or.inl hw)]

/-- Witness of C10: widening 8-bit values to 12 bits, `-128` staying `-128`. -/
theorem widening_lossless_witness :
    (8 ≤ 12) ∧
    (uint_to_uint lp64 8 12 ⟨255, by decide, by decide⟩).val = 255 ∧
    (sint_to_sint lp64 8 12 ⟨-128, by decide, by decide⟩).val = -128 ∧
    (sint_to_sint_maybe lp64 8 12 ⟨-128, by decide, by decide⟩).isSome = true :=
  ⟨by decide,
   ((widening_lossless lp64 8 12 (by decide)).1 ⟨255, by decide, by decide⟩).2,
   ((widening_lossless lp64 8 12 (by decide)).2 ⟨-128, by decide, by decide⟩).2,
   by rw [((widening_lossless lp64 8 12 (by decide)).2 ⟨-128, by decide, by decide⟩).1]; rfl⟩

/-! ## Unchecked casts: the low bits of the source -/

theorem toUnsigned_toUnsigned {w k : Nat} (hk : w ≤ k) (v : Int) :
    toUnsigned w (toUnsigned k v) = v % 2 ^ w := by
  unfold toUnsigned
  exact Int.emod_emod_of_dvd v (pow_dvd_pow 2 hk)

theorem toSigned_emod (k : Nat) (v : Int) : toSigned k v % 2 ^ k = v % 2 ^ k := by
  unfold toSigned
  split_ifs
  · exact Int.emod_emod v _
  · rw [Int.emod_sub_cancel]
    exact Int.emod_emod v _

theorem toSigned_congr {k : Nat} {a b : Int} (hab : a % 2 ^ k = b % 2 ^ k) :
    toSigned k a = toSigned k b := by
  unfold toSigned
  rw [hab]

theorem toSigned_emod_of_le {w k : Nat} (hk : w ≤ k) (v : Int) :
    toSigned k v % 2 ^ w = v % 2 ^ w := by
  have hd : (2 : Int) ^ w ∣ 2 ^ k := pow_dvd_pow 2 hk
  rw [← Int.emod_emod_of_dvd (toSigned k v) hd, toSigned_emod, Int.emod_emod_of_dvd v hd]

theorem toSigned_toSigned {w k : Nat} (hk : w ≤ k) (v : Int) :
    toSigned w (toSigned k v) = toSigned w v :=
  toSigned_congr (toSigned_emod_of_le hk v)

theorem uint_to_uint_val_mod (h : Host) (win wout : Nat) (x : UInt win) :
    (uint_to_uint h win wout x).val = x.val % 2 ^ wout :=
  toUnsigned_toUnsigned (h.repBits_ge wout) x.val

theorem sint_to_uint_val_mod (h : Host) (win wout : Nat) (x : SInt win) :
    (sint_to_uint h win wout x).val = x.val % 2 ^ wout :=
  toUnsigned_toUnsigned (h.repBits_ge wout) x.val

theorem uint_to_sint_val_signed (h : Host) (win wout : Nat) (x : UInt win) :
    (uint_to_sint h win wout x).val = toSigned wout x.val :=
  toSigned_toSigned (h.repBits_ge wout) x.val

theorem sint_to_sint_val_signed (h : Host) (win wout : Nat) (x : SInt win) :
    (sint_to_sint h win wout x).val = toSigned wout x.val :=
  toSigned_toSigned (h.repBits_ge wout) x.val

/-- Two `UInt<w>` values congruent modulo `2^w` are equal. -/
theorem uint_eq_of_congr {w : Nat} (y z : UInt w) (hc : z.val % 2 ^ w = y.val % 2 ^ w) :
    z = y := by
  apply UInt.ext
  rw [← Int.emod_eq_of_lt z.nonneg z.lt, ← Int.emod_eq_of_lt y.nonneg y.lt]
  exact hc

/-- Two `SInt<w>` values congruent modulo `2^w` are equal. -/
theorem sint_eq_of_congr {w : Nat} (y z : SInt w) (hc : z.val % 2 ^ w = y.val % 2 ^ w) :
    z = y := by
  apply SInt.ext
  rw [← toSigned_eq z.ge z.lt, ← toSigned_eq y.ge y.lt]
  exact toSigned_congr hc

/-- Claim C11: Narrowing round trip: a `UInt<in>` with `x ≤ 2^out - 1` and an
`SInt<in>` with `-2^(out-1) ≤ x ≤ 2^(out-1) - 1` come back unchanged from the
cast to `out` bits followed by the cast to `in` bits; this holds for `out < in`
and for every other pair of widths as well. -/
theorem narrowing_round_trip (h : Host) (win wout : Nat) (hout : 1 ≤ wout) :
    (∀ x : UInt win, x.val ≤ 2 ^ wout - 1 →
      uint_to_uint h wout win (uint_to_uint h win wout x) = x) ∧
    (∀ x : SInt win, -(2 ^ (wout - 1)) ≤ x.val → x.val ≤ 2 ^ (wout - 1) - 1 →
      sint_to_sint h wout win (sint_to_sint h win wout x) = x) := by
  have h2 := two_mul_two_pow_pred hout
  constructor
  · intro x hx
    have hn : (uint_to_uint h win wout x).val = x.val := uint_to_uint_val h x (by omega)
    apply UInt.ext
    rw [uint_to_uint_val h _ (by rw [hn]; exact x.lt), hn]
  · intro x hlo hhi
    have hn : (sint_to_sint h win wout x).val = x.val :=
      sint_to_sint_val h x (by omega) (by omega)
    apply SInt.ext
    rw [sint_to_sint_val h _ (by rw [hn]; exact x.ge) (by rw [hn]; exact x.lt), hn]

/-- Witness of C11: the 4-bit maximum 15 and the 4-bit minimum `-8`, held in 8
bits. -/
theorem narrowing_round_trip_witness :
    (1 ≤ 4) ∧
    uint_to_uint lp64 4 8 (uint_to_uint lp64 8 4 ⟨15, by decide, by decide⟩)
      = ⟨15, by decide, by decide⟩ ∧
    sint_to_sint lp64 4 8 (sint_to_sint lp64 8 4 ⟨-8, by decide, by decide⟩)
      = ⟨-8, by decide, by decide⟩ :=
  ⟨by decide,
   (narrowing_round_trip lp64 8 4 (by decide)).1 _ (by decide),
   (narrowing_round_trip lp64 8 4 (by decide)).2 _ (by decide) (by decide)⟩

/-- Claim C12: each unchecked fixed-width cast returns the value of the target
type that is congruent to the source modulo `2^out`: the result is in the
target range, congruent to `x`, and the only such value; and `sint_to_uint` of
a negative `x` with `out ≥ in` is `x + 2^out`. -/
theorem unchecked_cast_low_bits (h : Host) (win wout : Nat) (hout : 1 ≤ wout)
    (u : UInt win) (s : SInt win) :
    (0 ≤ (uint_to_uint h win wout u).val ∧ (uint_to_uint h win wout u).val ≤ 2 ^ wout - 1 ∧
      (uint_to_uint h win wout u).val % 2 ^ wout = u.val % 2 ^ wout ∧
      ∀ z : UInt wout, z.val % 2 ^ wout = u.val % 2 ^ wout → z = uint_to_uint h win wout u) ∧
    (0 ≤ (sint_to_uint h win wout s).val ∧ (sint_to_uint h win wout s).val ≤ 2 ^ wout - 1 ∧
      (sint_to_uint h win wout s).val % 2 ^ wout = s.val % 2 ^ wout ∧
      ∀ z : UInt wout, z.val % 2 ^ wout = s.val % 2 ^ wout → z = sint_to_uint h win wout s) ∧
    (-(2 ^ (wout - 1)) ≤ (uint_to_sint h win wout u).val ∧
      (uint_to_sint h win wout u).val ≤ 2 ^ (wout - 1) - 1 ∧
      (uint_to_sint h win wout u).val % 2 ^ wout = u.val % 2 ^ wout ∧
      ∀ z : SInt wout, z.val % 2 ^ wout = u.val % 2 ^ wout → z = uint_to_sint h win wout u) ∧
    (-(2 ^ (wout - 1)) ≤ (sint_to_sint h win wout s).val ∧
      (sint_to_sint h win wout s).val ≤ 2 ^ (wout - 1) - 1 ∧
      (sint_to_sint h win wout s).val % 2 ^ wout = s.val % 2 ^ wout ∧
      ∀ z : SInt wout, z.val % 2 ^ wout = s.val % 2 ^ wout → z = sint_to_sint h win wout s) ∧
    (s.val < 0 → win ≤ wout → (sint_to_uint h win wout s).val = s.val + 2 ^ wout) := by
  have h2 := two_mul_two_pow_pred hout
  have cuu : (uint_to_uint h win wout u).val % 2 ^ wout = u.val % 2 ^ wout := by
    rw [uint_to_uint_val_mod]
    exact Int.emod_emod _ _
  have csu : (sint_to_uint h win wout s).val % 2 ^ wout = s.val % 2 ^ wout := by
    rw [sint_to_uint_val_mod]
    exact Int.emod_emod _ _
  have cus : (uint_to_sint h win wout u).val % 2 ^ wout = u.val % 2 ^ wout := by
    rw [uint_to_sint_val_signed]
    exact toSigned_emod _ _
  have css : (sint_to_sint h win wout s).val % 2 ^ wout = s.val % 2 ^ wout := by
    rw [sint_to_sint_val_signed]
    exact toSigned_emod _ _
  refine ⟨⟨?_, ?_, cuu, fun z hz => ?_⟩, ⟨?_, ?_, csu, fun z hz => ?_⟩,
    ⟨?_, ?_, cus, fun z hz => ?_⟩, ⟨?_, ?_, css, fun z hz => ?_⟩, fun hneg hw => ?_⟩
  · exact (uint_to_uint h win wout u).nonneg
  · have := (uint_to_uint h win wout u).lt
    omega
  · exact uint_eq_of_congr _ z (by rw [hz, cuu])
  · exact (sint_to_uint h win wout s).nonneg
  · have := (sint_to_uint h win wout s).lt
    omega
  · exact uint_eq_of_congr _ z (by rw [hz, csu])
  · have := (uint_to_sint h win wout u).ge
    omega
  · have := (uint_to_sint h win wout u).lt
    omega
  · exact sint_eq_of_congr _ z (by rw [hz, cus])
  · have := (sint_to_sint h win wout s).ge
    omega
  · have := (sint_to_sint h win wout s).lt
    omega
  · exact sint_eq_of_congr _ z (by rw [hz, css])
  · have hle := two_pow_le hw
    have hp := two_pow_pos win
    have hge := s.ge
    rw [sint_to_uint_val_mod, ← Int.add_emod_self]
    exact Int.emod_eq_of_lt (by omega) (by omega)

/-- Witness of C12: the 8-bit values 255 and `-1` cast to 4 and to 8 bits. -/
theorem unchecked_cast_low_bits_witness :
    (1 ≤ 4) ∧
    (uint_to_uint lp64 8 4 ⟨255, by decide, by decide⟩).val % 2 ^ 4 = (255 : Int) % 2 ^ 4 ∧
    (uint_to_sint lp64 8 4 ⟨255, by decide, by decide⟩).val % 2 ^ 4 = (255 : Int) % 2 ^ 4 ∧
    (sint_to_uint lp64 8 8 ⟨-1, by decide, by decide⟩).val = -1 + 2 ^ 8 :=
  ⟨by decide,
   (unchecked_cast_low_bits lp64 8 4 (by decide) ⟨255, by decide, by decide⟩
      ⟨-1, by decide, by decide⟩).1.2.2.1,
   (unchecked_cast_low_bits lp64 8 4 (by decide) ⟨255, by decide, by decide⟩
      ⟨-1, by decide, by decide⟩).2.2.1.2.2.1,
   (unchecked_cast_low_bits lp64 8 8 (by decide) ⟨255, by decide, by decide⟩
      ⟨-1, by decide, by decide⟩).2.2.2.2 (by decide) (by decide)⟩

/-- Values the unchecked casts produce when they narrow: 8-bit 255 becomes the
4-bit 15 unsigned and `-1` signed; 8-bit `-1` becomes 255 as `UInt<8>`. -/
theorem unchecked_cast_examples :
    (uint_to_uint lp64 8 4 ⟨255, by decide, by decide⟩).val = 15 ∧
    (uint_to_sint lp64 8 4 ⟨255, by decide, by decide⟩).val = -1 ∧
    (sint_to_sint lp64 8 4 ⟨-100, by decide, by decide⟩).val = -4 ∧
    (sint_to_uint lp64 8 8 ⟨-1, by decide, by decide⟩).val = 255 := by
  decide

/-! ## Unchecked casts from and to arbitrary-precision integers -/

theorem integer_to_uint_val_mod (h : Host) (wout : Nat) (x : Integer) :
    (integer_to_uint h wout x).val = x.getValue % 2 ^ wout := by
  show toUnsigned wout (x.exportI false (h.repBits wout)) = x.getValue % 2 ^ wout
  simp only [Integer.exportI, Bool.false_eq_true, if_false]
  exact toUnsigned_toUnsigned (h.repBits_ge wout) x.getValue

theorem integer_to_sint_val_signed (h : Host) (wout : Nat) (x : Integer) :
    (integer_to_sint h wout x).val = toSigned wout x.getValue := by
  show toSigned wout (x.exportI true (h.repBits wout)) = toSigned wout x.getValue
  simp only [Integer.exportI, if_true]
  exact toSigned_toSigned (h.repBits_ge wout) x.getValue

/-- Claim C13: for a width `out ≥ 1` and every integer `x`, `integer_to_uint<out>`
and `integer_to_sint<out>` return a value in the target range congruent to `x`
modulo `2^out`, and `x` itself when `x` is in the target range. -/
theorem integer_unchecked_low_bits (h : Host) (wout : Nat) (hout : 1 ≤ wout) (x : Integer) :
    (0 ≤ (integer_to_uint h wout x).val ∧ (integer_to_uint h wout x).val ≤ 2 ^ wout - 1 ∧
      (integer_to_uint h wout x).val % 2 ^ wout = x.getValue % 2 ^ wout ∧
      (0 ≤ x.getValue → x.getValue ≤ 2 ^ wout - 1 →
        (integer_to_uint h wout x).val = x.getValue)) ∧
    (-(2 ^ (wout - 1)) ≤ (integer_to_sint h wout x).val ∧
      (integer_to_sint h wout x).val ≤ 2 ^ (wout - 1) - 1 ∧
      (integer_to_sint h wout x).val % 2 ^ wout = x.getValue % 2 ^ wout ∧
      (-(2 ^ (wout - 1)) ≤ x.getValue → x.getValue ≤ 2 ^ (wout - 1) - 1 →
        (integer_to_sint h wout x).val = x.getValue)) := by
  have h2 := two_mul_two_pow_pred hout
  refine ⟨⟨?_, ?_, ?_, fun h0 h1 => ?_⟩, ⟨?_, ?_, ?_, fun h0 h1 => ?_⟩⟩
  · exact (integer_to_uint h wout x).nonneg
  · have := (integer_to_uint h wout x).lt
    omega
  · rw [integer_to_uint_val_mod]
    exact Int.emod_emod _ _
  · exact integer_to_uint_val h x h0 (by omega)
  · have := (integer_to_sint h wout x).ge
    omega
  · have := (integer_to_sint h wout x).lt
    omega
  · rw [integer_to_sint_val_signed]
    exact toSigned_emod _ _
  · exact integer_to_sint_val h x (by omega) (by omega)

/-- Witness of C13: 256 + 44 and `-1` exported to 8 bits, congruent modulo
`2^8`. -/
theorem integer_unchecked_low_bits_witness :
    (1 ≤ 8) ∧
    (integer_to_uint lp64 8 ⟨300⟩).val % 2 ^ 8 = (300 : Int) % 2 ^ 8 ∧
    (integer_to_sint lp64 8 ⟨-1⟩).val % 2 ^ 8 = (-1 : Int) % 2 ^ 8 :=
  ⟨by decide,
   (integer_unchecked_low_bits lp64 8 (by decide) ⟨300⟩).1.2.2.1,
   (integer_unchecked_low_bits lp64 8 (by decide) ⟨-1⟩).2.2.2.1⟩

/-- Values of the unchecked integer casts at 8 bits: 300 becomes 44, `-1`
becomes 255 unsigned and stays `-1` signed, 200 becomes `-56` signed. -/
theorem integer_unchecked_examples :
    (integer_to_uint lp64 8 ⟨300⟩).val = 44 ∧
    (integer_to_uint lp64 8 ⟨-1⟩).val = 255 ∧
    (integer_to_sint lp64 8 ⟨-1⟩).val = -1 ∧
    (integer_to_sint lp64 8 ⟨200⟩).val = -56 := by
  decide

/-- Claim C14: `uint_to_integer<n>(x)` is the integer equal to the unsigned value
of `x`, `sint_to_integer<n>(x)` the one equal to the signed value of `x`,
negative whenever the top bit of the `n`-bit field of the storage value is set;
the `_maybe` variants are present and hold those integers. -/
theorem fixed_to_integer_exact (n : Nat) :
    (∀ x : UInt n, (uint_to_integer n x).getValue = x.val ∧
      uint_to_integer_maybe n x = some ⟨x.val⟩) ∧
    (∀ x : SInt n, (sint_to_integer n x).getValue = x.val ∧
      sint_to_integer_maybe n x = some ⟨x.val⟩) ∧
    (∀ d : Int, 2 ^ n ≤ 2 * (d % 2 ^ n) →
      (sint_to_integer n (SInt.ofRep n d)).getValue = d % 2 ^ n - 2 ^ n ∧
      (sint_to_integer n (SInt.ofRep n d)).getValue < 0) := by
  refine ⟨fun x => ⟨rfl, rfl⟩, fun x => ⟨rfl, rfl⟩, fun d hd => ?_⟩
  have hlt : d % 2 ^ n < 2 ^ n := Int.emod_lt_of_pos _ (two_pow_pos n)
  have hv : (sint_to_integer n (SInt.ofRep n d)).getValue = d % 2 ^ n - 2 ^ n := by
    show toSigned n d = d % 2 ^ n - 2 ^ n
    unfold toSigned
    rw [if_neg (by omega)]
  rw [hv]
  exact ⟨rfl, by omega⟩

/-- Values for C14: the 5-bit field `10000` held in 8-bit storage is the integer
`-16`, and the `UInt<5>` with the same bits is 16. -/
theorem fixed_to_integer_examples :
    (sint_to_integer 5 (SInt.ofRep 5 16)).getValue = -16 ∧
    (uint_to_integer 5 (UInt.ofRep 5 16)).getValue = 16 ∧
    sint_to_integer_maybe 8 ⟨-128, by decide, by decide⟩ = some ⟨-128⟩ := by
  decide

/-! ## Floating-point casts from integers -/

theorem roundToPrecision_nonneg (p : Nat) {r : Int} (hr : 0 ≤ r) :
    0 ≤ roundToPrecision p r := by
  unfold roundToPrecision
  simp only
  split_ifs
  · exact hr
  · exact mul_nonneg (Int.sign_nonneg.mpr hr) (Int.ofNat_nonneg _)
  · exact mul_nonneg (Int.sign_nonneg.mpr hr) (Int.ofNat_nonneg _)

/-- Values of the rounding: integers up to `2^53` are kept by a 53-bit
significand, `2^53 + 1` is a tie that goes to the even `2^53`, `2^53 + 3` goes
up to `2^53 + 4`, and the sign is kept. -/
theorem roundToPrecision_examples :
    roundToPrecision 53 255 = 255 ∧
    roundToPrecision 53 (-1) = -1 ∧
    roundToPrecision 53 (2 ^ 53) = 2 ^ 53 ∧
    roundToPrecision 53 (2 ^ 53 + 1) = 2 ^ 53 ∧
    roundToPrecision 53 (2 ^ 53 + 3) = 2 ^ 53 + 4 ∧
    roundToPrecision 24 (-(2 ^ 24 + 3)) = -(2 ^ 24 + 4) := by
  decide

/-- Claim C15, where the code departs from it: `sint_to_double<in>` and
`sint_to_float<in>` are declared on `UInt<in>`, so they are the unsigned
conversions: their result is never negative, and the 8-bit field of the signed
value `-1`, which is the `UInt<8>` 255, is converted to 255 where the claim
says `-1`. -/
theorem sint_to_double_takes_unsigned :
    (∀ (F : Type) (cvt : Int → F) (win : Nat) (x : UInt win),
      sint_to_double cvt win x = uint_to_double cvt win x ∧
      sint_to_float cvt win x = uint_to_float cvt win x) ∧
    (∀ (win : Nat) (x : UInt win),
      0 ≤ (sint_to_double (roundToPrecision 53) win x).getValue ∧
      0 ≤ (sint_to_float (roundToPrecision 24) win x).getValue) ∧
    (sint_to_uint lp64 8 8 ⟨-1, by decide, by decide⟩).val = 255 ∧
    (sint_to_double (roundToPrecision 53) 8 ⟨255, by decide, by decide⟩).getValue = 255 ∧
    (sint_to_float (roundToPrecision 24) 8 ⟨255, by decide, by decide⟩).getValue = 255 ∧
    roundToPrecision 53 (-1) = -1 := by
  refine ⟨fun F cvt win x => ⟨rfl, rfl⟩, fun win x => ⟨?_, ?_⟩, by decide, by decide,
    by decide, by decide⟩
  · exact roundToPrecision_nonneg 53 x.nonneg
  · exact roundToPrecision_nonneg 24 x.nonneg

/-! ## Value-identity cast -/

/-- Claim C16: for a value kind whose `copy()` leaves the value as it is (kinds
without shared storage never call it), `refl_cast(x)` returns `x` and
`refl_cast_maybe(x)` is present and holds `x`. -/
theorem refl_cast_identity {T : Type} (k : Kind T)
    (hcopy : k.hasRefs = true → ∀ x, k.copy x = x) (x : T) :
    refl_cast k x = x ∧ refl_cast_maybe k x = some x := by
  unfold refl_cast refl_cast_maybe
  by_cases hr : k.hasRefs = true
  · simp [hr, hcopy hr x]
  · simp [hr]

/-- Witness of C16: an arbitrary-precision integer, whose kind has shared
storage and copies it. -/
theorem refl_cast_identity_witness :
    (integerKind.hasRefs = true → ∀ x, integerKind.copy x = x) ∧
    refl_cast integerKind ⟨2 ^ 64⟩ = ⟨2 ^ 64⟩ ∧
    refl_cast_maybe integerKind ⟨2 ^ 64⟩ = some ⟨2 ^ 64⟩ :=
  ⟨fun _ _ => rfl,
   (refl_cast_identity integerKind (fun _ _ => rfl) ⟨2 ^ 64⟩).1,
   (refl_cast_identity integerKind (fun _ _ => rfl) ⟨2 ^ 64⟩).2⟩

/-- The identity cast on the kinds without shared storage: fixed-width integers
and floats, for every value. -/
theorem refl_cast_plain_kinds (w : Nat) (F : Type) :
    (∀ x : UInt w, refl_cast (uintKind w) x = x ∧ refl_cast_maybe (uintKind w) x = some x) ∧
    (∀ x : SInt w, refl_cast (sintKind w) x = x ∧ refl_cast_maybe (sintKind w) x = some x) ∧
    (∀ x : Double F, refl_cast (floatKind F) x = x ∧
      refl_cast_maybe (floatKind F) x = some x) :=
  ⟨fun _ => ⟨rfl, rfl⟩, fun _ => ⟨rfl, rfl⟩, fun _ => ⟨rfl, rfl⟩⟩

/-! ## Checked against unchecked casts -/

theorem integer_to_uint_maybe_some (h : Host) (wout : Nat) (x : Integer) (v : UInt wout)
    (hv : integer_to_uint_maybe h wout x = some v) : v = integer_to_uint h wout x := by
  unfold integer_to_uint_maybe at hv
  split_ifs at hv
  simp only [Option.some.injEq] at hv
  rw [← hv]
  rfl

theorem integer_to_sint_maybe_some (h : Host) (wout : Nat) (x : Integer) (v : SInt wout)
    (hv : integer_to_sint_maybe h wout x = some v) : v = integer_to_sint h wout x := by
  unfold integer_to_sint_maybe at hv
  by_cases hf : mpz_fits_slong_p h x.getValue = true
  · simp only [hf, if_true, mpz_get_si_of_fits h _ hf] at hv
    split_ifs at hv
    simp only [Option.some.injEq] at hv
    rw [← hv]
    rfl
  · simp only [hf, Bool.false_eq_true, if_false] at hv
    split_ifs at hv
    simp only [Option.some.injEq] at hv
    rw [← hv]
    rfl

/-- Claim C17: whenever a checked cast returns present(v), `v` is the result of
the corresponding unchecked cast, for the four fixed-width casts and for the
two casts from integers (the native-word path of `integer_to_sint_maybe`
included). -/
theorem checked_agrees_with_unchecked (h : Host) (win wout : Nat) :
    (∀ (x : UInt win) (v : UInt wout),
      uint_to_uint_maybe h win wout x = some v → v = uint_to_uint h win wout x) ∧
    (∀ (x : SInt win) (v : SInt wout),
      sint_to_sint_maybe h win wout x = some v → v = sint_to_sint h win wout x) ∧
    (∀ (x : UInt win) (v : SInt wout),
      uint_to_sint_maybe h win wout x = some v → v = uint_to_sint h win wout x) ∧
    (∀ (x : SInt win) (v : UInt wout),
      sint_to_uint_maybe h win wout x = some v → v = sint_to_uint h win wout x) ∧
    (∀ (x : Integer) (v : UInt wout),
      integer_to_uint_maybe h wout x = some v → v = integer_to_uint h wout x) ∧
    (∀ (x : Integer) (v : SInt wout),
      integer_to_sint_maybe h wout x = some v → v = integer_to_sint h wout x) := by
  refine ⟨fun x v hv => ?_, fun x v hv => ?_, fun x v hv => ?_, fun x v hv => ?_,
    integer_to_uint_maybe_some h wout, integer_to_sint_maybe_some h wout⟩
  · rw [uint_to_uint_maybe_eq] at hv
    split_ifs at hv
    simp only [Option.some.injEq] at hv
    exact hv.symm
  · rw [sint_to_sint_maybe_eq] at hv
    split_ifs at hv
    simp only [Option.some.injEq] at hv
    exact hv.symm
  · rw [uint_to_sint_maybe_eq] at hv
    split_ifs at hv
    simp only [Option.some.injEq] at hv
    exact hv.symm
  · rw [sint_to_uint_maybe_eq] at hv
    split_ifs at hv
    simp only [Option.some.injEq] at hv
    exact hv.symm

/-- Values for C17 on the native-word path: `integer_to_sint_maybe<8>(-128)` holds
what `integer_to_sint<8>(-128)` returns. -/
theorem checked_agrees_examples :
    integer_to_sint_maybe lp64 8 ⟨-128⟩ = some (integer_to_sint lp64 8 ⟨-128⟩) ∧
    integer_to_sint_maybe ilp32 40 ⟨2 ^ 38⟩ = some (integer_to_sint ilp32 40 ⟨2 ^ 38⟩) ∧
    integer_to_uint_maybe lp64 8 ⟨255⟩ = some (integer_to_uint lp64 8 ⟨255⟩) := by
  decide

/-! ## Routing a checked cast through the arbitrary-precision integer -/

theorem integer_to_sint_maybe_eq_exact (h : Host) (wout : Nat) (hout : 1 ≤ wout)
    (hhost : wout ≤ h.longBits ∨ h.repBits wout = wout) (x : Integer) :
    integer_to_sint_maybe h wout x =
      if -(2 ^ (wout - 1)) ≤ x.getValue ∧ x.getValue ≤ 2 ^ (wout - 1) - 1
      then some (integer_to_sint h wout x) else none := by
  by_cases hx : -(2 ^ (wout - 1)) ≤ x.getValue ∧ x.getValue ≤ 2 ^ (wout - 1) - 1
  · rw [if_pos hx]
    exact integer_to_sint_maybe_in_range h wout hout x hx.1 hx.2
  · rw [if_neg hx]
    exact integer_to_sint_maybe_out_of_range h wout hout hhost x hx

/-- The two routes to an unsigned target agree on every host: through the
integer, and by the direct checked cast. -/
theorem routing_to_uint (h : Host) (win wout : Nat) (hout : 1 ≤ wout) :
    (∀ x : UInt win,
      integer_to_uint_maybe h wout (uint_to_integer win x) = uint_to_uint_maybe h win wout x) ∧
    (∀ x : SInt win,
      integer_to_uint_maybe h wout (sint_to_integer win x)
        = sint_to_uint_maybe h win wout x) := by
  have hpo := two_pow_pos wout
  constructor
  · intro x
    have hx0 := x.nonneg
    have hx1 := x.lt
    have hg : (uint_to_integer win x).getValue = x.val := rfl
    have hu : integer_to_uint h wout (uint_to_integer win x) = uint_to_uint h win wout x := rfl
    rw [integer_to_uint_maybe_eq h wout hout, uint_to_uint_maybe_eq, hg, hu]
    by_cases hc : x.val ≤ 2 ^ wout - 1
    · simp [hc, hx0]
    · have hw : ¬ win ≤ wout := fun hw => hc (by have := two_pow_le hw; omega)
      simp [hc, hw]
  · intro x
    have hx1 := x.lt
    have hp := two_pow_pos win
    have hg : (sint_to_integer win x).getValue = x.val := rfl
    have hu : integer_to_uint h wout (sint_to_integer win x) = sint_to_uint h win wout x := rfl
    rw [integer_to_uint_maybe_eq h wout hout, sint_to_uint_maybe_eq, hg, hu]
    by_cases hn : x.val < 0
    · have hn2 : ¬ 0 ≤ x.val := by omega
      simp [hn, hn2]
    · have hn2 : 0 ≤ x.val := by omega
      by_cases hc : x.val ≤ 2 ^ wout - 1
      · simp [hn, hn2, hc]
      · have hw : ¬ win ≤ wout := fun hw => hc (by have := two_pow_le hw; omega)
        simp [hn, hc, hw]

/-- The two routes to a signed target agree where `out` is at most the bits of a
`long` or the storage type has exactly `out` bits. -/
theorem routing_to_sint_exact_host (h : Host) (win wout : Nat) (hout : 1 ≤ wout)
    (hhost : wout ≤ h.longBits ∨ h.repBits wout = wout) :
    (∀ x : UInt win,
      integer_to_sint_maybe h wout (uint_to_integer win x) = uint_to_sint_maybe h win wout x) ∧
    (∀ x : SInt win,
      integer_to_sint_maybe h wout (sint_to_integer win x)
        = sint_to_sint_maybe h win wout x) := by
  have h2 := two_mul_two_pow_pred hout
  have hpo := two_pow_pos (wout - 1)
  constructor
  · intro x
    have hx0 := x.nonneg
    have hx1 := x.lt
    have hg : (uint_to_integer win x).getValue = x.val := rfl
    have hu : integer_to_sint h wout (uint_to_integer win x) = uint_to_sint h win wout x := rfl
    rw [integer_to_sint_maybe_eq_exact h wout hout hhost, uint_to_sint_maybe_eq, hg, hu]
    by_cases hc : x.val ≤ 2 ^ (wout - 1) - 1
    · have hlo : -(2 ^ (wout - 1)) ≤ x.val := by omega
      simp [hc, hlo]
    · have hw : ¬ win < wout := fun hw => hc (by
        have := two_mul_two_pow_pred_le hw
        have h3 : (2 : Int) ^ win ≤ 2 ^ (wout - 1) := two_pow_le (by omega)
        omega)
      simp [hc, hw]
  · intro x
    have hx0 := x.ge
    have hx1 := x.lt
    have hg : (sint_to_integer win x).getValue = x.val := rfl
    have hu : integer_to_sint h wout (sint_to_integer win x) = sint_to_sint h win wout x := rfl
    rw [integer_to_sint_maybe_eq_exact h wout hout hhost, sint_to_sint_maybe_eq, hg, hu]
    by_cases hc : -(2 ^ (wout - 1)) ≤ x.val ∧ x.val ≤ 2 ^ (wout - 1) - 1
    · simp [hc]
    · have hw : ¬ win ≤ wout := fun hw => hc (by
        have := two_pow_le hw
        constructor
        · omega
        · omega)
      simp [hc, hw]

/-- Instance of the exact-host routing: a 64-bit `long`, 64-bit source, width
40. -/
theorem routing_to_sint_exact_host_witness :
    (1 ≤ 40) ∧ (40 ≤ lp64.longBits ∨ lp64.repBits 40 = 40) ∧
    integer_to_sint_maybe lp64 40 (uint_to_integer 64 ⟨2 ^ 39, by decide, by decide⟩)
      = uint_to_sint_maybe lp64 64 40 ⟨2 ^ 39, by decide, by decide⟩ :=
  ⟨by decide, Or.inl (by decide),
   (routing_to_sint_exact_host lp64 64 40 (by decide) (Or.inl (by decide))).1 _⟩

/-- Claim C18, where the code departs from it: with a 32-bit `long` and the
target width 40, the value `2^39` routed through the integer is present and
holds `-2^39`, while the direct checked casts `uint_to_sint_maybe<64,40>` and
`sint_to_sint_maybe<64,40>` are absent. -/
theorem routing_through_integer_ilp32_w40 :
    (integer_to_sint_maybe ilp32 40
        (uint_to_integer 64 ⟨2 ^ 39, by decide, by decide⟩)).map SInt.val = some (-(2 ^ 39)) ∧
    uint_to_sint_maybe ilp32 64 40 ⟨2 ^ 39, by decide, by decide⟩ = none ∧
    (integer_to_sint_maybe ilp32 40
        (sint_to_integer 64 ⟨2 ^ 39, by decide, by decide⟩)).map SInt.val = some (-(2 ^ 39)) ∧
    sint_to_sint_maybe ilp32 64 40 ⟨2 ^ 39, by decide, by decide⟩ = none := by
  decide

/-! ## Same-width reinterpretation -/

/-- Claim C19: at equal widths `sint_to_uint` and `uint_to_sint` are inverse to
each other, and `uint_to_uint` and `sint_to_sint` are the identity. -/
theorem same_width_bijection (h : Host) (n : Nat) :
    (∀ s : SInt n, uint_to_sint h n n (sint_to_uint h n n s) = s) ∧
    (∀ u : UInt n, sint_to_uint h n n (uint_to_sint h n n u) = u) ∧
    (∀ u : UInt n, uint_to_uint h n n u = u) ∧
    (∀ s : SInt n, sint_to_sint h n n s = s) := by
  refine ⟨fun s => ?_, fun u => ?_, fun u => ?_, fun s => ?_⟩
  · apply SInt.ext
    rw [uint_to_sint_val_signed, sint_to_uint_val_mod]
    rw [toSigned_congr (Int.emod_emod s.val (2 ^ n))]
    exact toSigned_eq s.ge s.lt
  · apply UInt.ext
    rw [sint_to_uint_val_mod, uint_to_sint_val_signed, toSigned_emod]
    exact Int.emod_eq_of_lt u.nonneg u.lt
  · apply UInt.ext
    exact uint_to_uint_val h u u.lt
  · apply SInt.ext
    exact sint_to_sint_val h s s.ge s.lt

/-- Values for C19 at width 8: `-1` and 255 are each other's reinterpretation,
as are `-128` and 128. -/
theorem same_width_examples :
    (sint_to_uint lp64 8 8 ⟨-1, by decide, by decide⟩).val = 255 ∧
    (uint_to_sint lp64 8 8 ⟨255, by decide, by decide⟩).val = -1 ∧
    (sint_to_uint lp64 8 8 ⟨-128, by decide, by decide⟩).val = 128 ∧
    (uint_to_sint lp64 8 8 ⟨128, by decide, by decide⟩).val = -128 := by
  decide

end DDL
